import Mathlib

/-
Shallow embedding of the wordg program (riordanmr/wordg, wordg.go).

The program plays Wordle in two roles:
* oracle role (`runGame`): holds a secret 5-letter word and scores guesses
  with a 5-character verdict token over {y, p, n};
* solver role (`doGuesses` / `processResponse`): keeps one `StringSet` of
  still-possible letters per position plus a letter -> minimum-occurrence
  map (`requiredLetters`), and proposes the first dictionary word compatible
  with everything learned so far.

Words and verdict tokens are modeled as `List Char` (the source slices Go
strings byte by byte; all letters are single-byte lowercase ASCII).  The
per-position `StringSet` becomes `Finset Char`; the two Go maps
(`requiredLetters`, `charToCountThisGuess`, `mapLetterToCount`) become
association lists with Go-map update semantics.  `requiredLetters` is a
module-level variable in the source; it is threaded here as a field of
`SolverState`.  A Go runtime panic (out-of-range string slice) is modeled
by returning `none`.
-/

/-- Number of letters per word, `LETTERS_IN_WORD` in the source. -/
def LETTERS_IN_WORD : Nat := 5

/-- The alphabet string used by `doGuesses` to populate the sets. -/
def alphabet : List Char := "abcdefghijklmnopqrstuvwxyz".toList

/-- Initial per-position set of valid letters: `doGuesses` adds every
alphabet letter to each position's `StringSet`. -/
def initSet : Finset Char := alphabet.foldl (fun s c => insert c s) ∅

/-! ### The scorer (inline in `runGame`, wordg.go lines 101-137)

Pass 1 marks `y` at every position where guess and word agree (and leaves
`" "` elsewhere).  Pass 2 handles each remaining position `j`: the guessed
letter is `p` if it occurs in the word at some other position `k` that is
not an exact match (`response[k] != "y"`), else `n`.  Both words are
assumed to have length 5 (`runGame` rejects other guesses, and dictionary
words have 5 letters). -/

/-- First scoring pass of `runGame`: `response[j] = "y"` iff the letters
agree at `j`; other positions keep the initial `" "`. -/
def scorePass1 (word guess : List Char) : List Char :=
  (List.range 5).map (fun j => if guess.getD j ' ' = word.getD j ' ' then 'y' else ' ')

/-- Body of the second scoring pass of `runGame` for position `j`: scan the
word for the guessed letter at a position `k ≠ j` that is not an exact
match, writing `p` or `n`. -/
def scorePass2Step (word guess : List Char) (resp : List Char) (j : Nat) : List Char :=
  if guess.getD j ' ' ≠ word.getD j ' ' then
    let found := (List.range 5).any (fun k =>
      k != j && (guess.getD j ' ' == word.getD k ' ') && !(resp.getD k ' ' == 'y'))
    resp.set j (if found then 'p' else 'n')
  else resp

/-- The verdict token computed by `runGame` for a secret `word` and a
`guess`, as a list of 5 characters over {y, p, n}. -/
def runGameScore (word guess : List Char) : List Char :=
  (List.range 5).foldl (scorePass2Step word guess) (scorePass1 word guess)

/-! ### Solver state -/

/-- State owned by a solver (`--guess`) session: one set of valid letters
per position (`validLetters` in `doGuesses`) and the letter ->
minimum-occurrence association (`requiredLetters`, a module-level map in
the source, threaded here as part of the state). -/
structure SolverState where
  validLetters : List (Finset Char)
  requiredLetters : List (Char × Nat)
deriving DecidableEq

/-- Solver state at session start: all five positions hold the full
alphabet and no letter is known to be required. -/
def initState : SolverState :=
  { validLetters := List.replicate 5 initSet, requiredLetters := [] }

/-! ### Association lists with Go-map semantics -/

/-- Lookup in an association list (Go `m[c]` with `present` flag). -/
def lookupPairs (m : List (Char × Nat)) (c : Char) : Option Nat :=
  match m with
  | [] => none
  | (k, v) :: rest => if k = c then some v else lookupPairs rest c

/-- Lookup with the map's zero default. -/
def lookupCount (m : List (Char × Nat)) (c : Char) : Nat :=
  (lookupPairs m c).getD 0

/-- Go map assignment `m[c] = n`: update the entry if the key is present,
otherwise add it. -/
def setPair (m : List (Char × Nat)) (c : Char) (n : Nat) : List (Char × Nat) :=
  match m with
  | [] => [(c, n)]
  | (k, v) :: rest => if k = c then (k, n) :: rest else (k, v) :: setPair rest c n

/-- The `if present { m[c]++ } else { m[c] = 1 }` pattern used for
`charToCountThisGuess` and `mapLetterToCount` in the source. -/
def bumpCount (m : List (Char × Nat)) (c : Char) : List (Char × Nat) :=
  match lookupPairs m c with
  | some n => setPair m c (n + 1)
  | none => setPair m c 1

/-- `makeMapFromWord` from the source: map each letter of a word to its
occurrence count. -/
def makeMapFromWord (word : List Char) : List (Char × Nat) :=
  word.foldl (fun m ch => bumpCount m ch) []

/-- One step of the loop at the end of `processResponse` that merges the
per-guess tally into `requiredLetters`: a tallied count replaces the
stored one only if it is larger (or the letter was not stored yet). -/
def mergeOne (req : List (Char × Nat)) (p : Char × Nat) : List (Char × Nat) :=
  match lookupPairs req p.1 with
  | some old => if p.2 > old then setPair req p.1 p.2 else req
  | none => setPair req p.1 p.2

/-- The loop at the end of `processResponse` merging the per-guess tally
`charToCountThisGuess` into `requiredLetters`. -/
def mergeRequired (required tally : List (Char × Nat)) : List (Char × Nat) :=
  tally.foldl mergeOne required

/-! ### `processResponse` (the ingest operation, source lines 332-387) -/

/-- Per-position update of the valid-letter sets in `processResponse`:
`n` removes the guessed letter from every position's set, `y` replaces the
position's set by the singleton of the guessed letter (`RemoveAll` then
`Add`), `p` removes the guessed letter from this position's set only, and
any other response character changes nothing. -/
def updateValid (validLetters : List (Finset Char)) (guessCh respCh : Char) (ipos : Nat) :
    List (Finset Char) :=
  if respCh = 'n' then validLetters.map (fun s => s.erase guessCh)
  else if respCh = 'y' then validLetters.set ipos {guessCh}
  else if respCh = 'p' then validLetters.set ipos ((validLetters.getD ipos ∅).erase guessCh)
  else validLetters

/-- Per-position update of `charToCountThisGuess`: `y` and `p` each bump
the guessed letter's tally; `n` and unexpected characters do not. -/
def updateTally (tally : List (Char × Nat)) (guessCh respCh : Char) : List (Char × Nat) :=
  if respCh = 'y' ∨ respCh = 'p' then bumpCount tally guessCh else tally

/-- Accumulation of the "Unexpected response char" diagnostics emitted by
the final `else` branch of the position loop. -/
def updateBad (bad : List Char) (respCh : Char) : List Char :=
  if respCh = 'n' ∨ respCh = 'y' ∨ respCh = 'p' then bad else bad ++ [respCh]

/-- Accumulator of the position loop of `processResponse`. -/
structure LoopAcc where
  validLetters : List (Finset Char)
  tally : List (Char × Nat)
  bad : List Char
deriving DecidableEq

/-- One iteration of the position loop of `processResponse`.  The source
evaluates `myGuess[ipos : ipos+1]` before branching on the response
character; `none` models the Go panic when that slice is out of range
(which happens when no candidate was found and `myGuess` is empty). -/
def processStep (myGuess response : List Char) (acc : Option LoopAcc) (ipos : Nat) :
    Option LoopAcc :=
  match acc with
  | none => none
  | some a =>
    match myGuess.get? ipos with
    | none => none
    | some guessCh =>
      let respCh := response.getD ipos ' '
      some { validLetters := updateValid a.validLetters guessCh respCh ipos,
             tally := updateTally a.tally guessCh respCh,
             bad := updateBad a.bad respCh }

/-- Result of one `processResponse` call: the updated state, the
`foundAnswer` return value, and the diagnostics it printed (`badLength`
for "Response must be of length 5", `bad` for the unexpected response
characters). -/
structure ProcessResult where
  state : SolverState
  foundAnswer : Bool
  badLength : Bool
  bad : List Char
deriving DecidableEq

/-- The all-Exact verdict token. -/
def yyyyy : List Char := ['y', 'y', 'y', 'y', 'y']

/-- `processResponse` from the source: an all-`y` response means the word
was found (no state change); a response of wrong length is rejected with a
message (no state change); otherwise the five positions are processed in
order and the per-guess tally is merged into `requiredLetters`.  `none`
models the out-of-range panic on `myGuess`. -/
def processResponse (st : SolverState) (myGuess response : List Char) :
    Option ProcessResult :=
  if response = yyyyy then
    some { state := st, foundAnswer := true, badLength := false, bad := [] }
  else if response.length ≠ 5 then
    some { state := st, foundAnswer := false, badLength := true, bad := [] }
  else
    match (List.range 5).foldl (processStep myGuess response)
        (some ⟨st.validLetters, [], []⟩) with
    | none => none
    | some a =>
      some { state := { validLetters := a.validLetters,
                        requiredLetters := mergeRequired st.requiredLetters a.tally },
             foundAnswer := false, badLength := false, bad := a.bad }

/-! ### The candidate selector (in `doGuesses`, source lines 441-470) -/

/-- Condition (a) of the selector: every letter of the word belongs to its
position's set of valid letters (the inner `ilet` loop of `doGuesses`). -/
def condA (st : SolverState) (w : List Char) : Bool :=
  (List.range w.length).all (fun i => decide (w.getD i ' ' ∈ st.validLetters.getD i ∅))

/-- Check of one `requiredLetters` entry in `doGuesses`: the candidate
fails the entry if the letter is absent from the word or occurs fewer
times than required. -/
def checkRequired (m : List (Char × Nat)) (p : Char × Nat) : Bool :=
  match lookupPairs m p.1 with
  | none => false
  | some k => decide (p.2 ≤ k)

/-- Condition (b) of the selector: for every entry of `requiredLetters`
the word contains the letter at least the required number of times (the
`requiredLetters` loop of `doGuesses` over `makeMapFromWord`). -/
def condB (st : SolverState) (w : List Char) : Bool :=
  st.requiredLetters.all (checkRequired (makeMapFromWord w))

/-- The candidate scan of `doGuesses`: the first dictionary word passing
condition (a) and then condition (b). -/
def selectNext (allWords : List (List Char)) (st : SolverState) : Option (List Char) :=
  allWords.find? (fun w => condA st w && condB st w)

/-! ### Auxiliary definitions used to state the claims -/

/-- Pure form of one iteration of the position loop, usable once the
guess is known to be long enough for the slice to be in range. -/
def stepPure (myGuess response : List Char) (a : LoopAcc) (ipos : Nat) : LoopAcc :=
  { validLetters := updateValid a.validLetters (myGuess.getD ipos ' ')
      (response.getD ipos ' ') ipos,
    tally := updateTally a.tally (myGuess.getD ipos ' ') (response.getD ipos ' '),
    bad := updateBad a.bad (response.getD ipos ' ') }

/-- A letter is absent from every position's set of valid letters. -/
def NotMemAll (c : Char) (sets : List (Finset Char)) : Prop :=
  ∀ k, c ∉ sets.getD k ∅

/-- Keys of an association list. -/
def keysOf (m : List (Char × Nat)) : List Char :=
  m.map Prod.fst

/-- The per-guess tally in the words of the specification: how many
positions of this single verdict sequence carry an Exact or Present
verdict for the letter `c`. -/
def tallySpec (myGuess response : List Char) (c : Char) : Nat :=
  (List.range 5).countP (fun i =>
    decide ((response.getD i ' ' = 'y' ∨ response.getD i ' ' = 'p') ∧
      myGuess.getD i ' ' = c))

/-- Condition (a) in the words of the specification: every letter of the
word is a member of its position's constraint set. -/
def SpecA (st : SolverState) (w : List Char) : Prop :=
  ∀ i < w.length, w.getD i ' ' ∈ st.validLetters.getD i ∅

/-- Condition (b) in the words of the specification: for every letter with
a recorded required count `n > 0`, the word contains at least `n`
occurrences of that letter. -/
def SpecB (st : SolverState) (w : List Char) : Prop :=
  ∀ c n, lookupPairs st.requiredLetters c = some n → 0 < n → n ≤ w.count c

/-- A solver state in which the accumulated constraints exclude `a` at
position 0, so that the dictionary `["apple"]` admits no candidate. -/
def stNoCandidate : SolverState :=
  { validLetters := [initSet.erase 'a', initSet, initSet, initSet, initSet],
    requiredLetters := [] }

/-! ### Association list lemmas -/

theorem lookupPairs_setPair (m : List (Char × Nat)) (c d : Char) (n : Nat) :
    lookupPairs (setPair m c n) d = if d = c then some n else lookupPairs m d := by
  induction m with
  | nil =>
    simp only [setPair, lookupPairs]
    by_cases h : c = d
    · simp [h]
    · simp [h, Ne.symm h]
  | cons kv rest ih =>
    obtain ⟨k, v⟩ := kv
    by_cases hk : k = c
    · subst hk
      simp only [setPair, if_pos rfl, lookupPairs]
      by_cases h : k = d
      · simp [h]
      · simp [h, Ne.symm h]
    · simp only [setPair, if_neg hk, lookupPairs]
      by_cases h : k = d
      · subst h
        have hdc : ¬ k = c := hk
        simp [hdc]
      · simp [h, ih]

theorem lookupCount_setPair (m : List (Char × Nat)) (c d : Char) (n : Nat) :
    lookupCount (setPair m c n) d = if d = c then n else lookupCount m d := by
  simp only [lookupCount, lookupPairs_setPair]
  by_cases h : d = c <;> simp [h]

theorem lookupCount_bumpCount (m : List (Char × Nat)) (c d : Char) :
    lookupCount (bumpCount m c) d = lookupCount m d + if d = c then 1 else 0 := by
  unfold bumpCount
  cases hm : lookupPairs m c with
  | none =>
    rw [lookupCount_setPair]
    by_cases h : d = c
    · subst h
      simp [lookupCount, hm]
    · simp [h]
  | some k =>
    rw [lookupCount_setPair]
    by_cases h : d = c
    · subst h
      simp [lookupCount, hm]
    · simp [h]

theorem isSome_lookupPairs_bumpCount (m : List (Char × Nat)) (c d : Char) :
    (lookupPairs (bumpCount m c) d).isSome ↔ (lookupPairs m d).isSome ∨ d = c := by
  unfold bumpCount
  cases hm : lookupPairs m c with
  | none =>
    rw [lookupPairs_setPair]
    by_cases h : d = c <;> simp [h]
  | some k =>
    rw [lookupPairs_setPair]
    by_cases h : d = c
    · subst h
      simp [hm]
    · simp [h]

theorem mem_keysOf_iff_isSome (m : List (Char × Nat)) (c : Char) :
    c ∈ keysOf m ↔ (lookupPairs m c).isSome := by
  induction m with
  | nil => simp [keysOf, lookupPairs]
  | cons kv rest ih =>
    obtain ⟨k, v⟩ := kv
    by_cases h : k = c
    · subst h
      simp [keysOf, lookupPairs]
    · simp only [keysOf, List.map_cons, List.mem_cons, lookupPairs, if_neg h]
      constructor
      · rintro (h1 | h1)
        · exact absurd h1.symm h
        · exact (ih.mp (by simpa [keysOf] using h1))
      · intro h1
        exact Or.inr (by simpa [keysOf] using ih.mpr h1)

theorem keysOf_setPair_mem (m : List (Char × Nat)) (c : Char) (n : Nat)
    (h : c ∈ keysOf m) : keysOf (setPair m c n) = keysOf m := by
  induction m with
  | nil => simp [keysOf] at h
  | cons kv rest ih =>
    obtain ⟨k, v⟩ := kv
    by_cases hk : k = c
    · subst hk
      simp [setPair, keysOf]
    · have hc : c ∈ keysOf rest := by
        rcases (by simpa [keysOf] using h) with h1 | h1
        · exact absurd h1.symm hk
        · simpa [keysOf] using h1
      have hrec := ih hc
      simp only [keysOf] at hrec
      simp [setPair, hk, keysOf, hrec]

theorem keysOf_setPair_not_mem (m : List (Char × Nat)) (c : Char) (n : Nat)
    (h : c ∉ keysOf m) : keysOf (setPair m c n) = keysOf m ++ [c] := by
  induction m with
  | nil => simp [setPair, keysOf]
  | cons kv rest ih =>
    obtain ⟨k, v⟩ := kv
    have hk : k ≠ c := by
      intro hkc
      exact h (by simp [keysOf, hkc])
    have hc : c ∉ keysOf rest := by
      intro hc
      exact h (by simp [keysOf]; exact Or.inr (by simpa [keysOf] using hc))
    have hrec := ih hc
    simp only [keysOf] at hrec
    simp [setPair, hk, keysOf, hrec]

theorem nodup_keysOf_bumpCount (m : List (Char × Nat)) (c : Char)
    (h : (keysOf m).Nodup) : (keysOf (bumpCount m c)).Nodup := by
  unfold bumpCount
  cases hm : lookupPairs m c with
  | none =>
    have hmem : c ∉ keysOf m := by
      rw [mem_keysOf_iff_isSome, hm]
      simp
    rw [keysOf_setPair_not_mem m c 1 hmem]
    simpa [List.nodup_append] using ⟨h, hmem⟩
  | some k =>
    have hmem : c ∈ keysOf m := by
      rw [mem_keysOf_iff_isSome, hm]
      simp
    rw [keysOf_setPair_mem m c (k + 1) hmem]
    exact h

theorem lookupPairs_mem (m : List (Char × Nat)) (c : Char) (n : Nat)
    (h : lookupPairs m c = some n) : (c, n) ∈ m := by
  induction m with
  | nil => simp [lookupPairs] at h
  | cons kv rest ih =>
    obtain ⟨k, v⟩ := kv
    by_cases hk : k = c
    · subst hk
      rw [show lookupPairs ((k, v) :: rest) k = some v by simp [lookupPairs]] at h
      injection h with h
      subst h
      simp
    · simp only [lookupPairs, if_neg hk] at h
      exact List.mem_cons_of_mem _ (ih h)

theorem mem_lookupPairs_of_nodup (m : List (Char × Nat)) (c : Char) (n : Nat)
    (hnd : (keysOf m).Nodup) (h : (c, n) ∈ m) : lookupPairs m c = some n := by
  induction m with
  | nil => simp at h
  | cons kv rest ih =>
    obtain ⟨k, v⟩ := kv
    rcases List.mem_cons.mp h with h1 | h1
    · injection h1 with h1a h1b
      subst h1a
      subst h1b
      simp [lookupPairs]
    · have hk : k ≠ c := by
        intro hkc
        subst hkc
        have : k ∈ keysOf rest := by
          simp only [keysOf]
          exact List.mem_map.mpr ⟨(k, n), h1, rfl⟩
        simp only [keysOf, List.map_cons, List.nodup_cons] at hnd
        exact hnd.1 this
      have hnd' : (keysOf rest).Nodup := by
        simp only [keysOf, List.map_cons, List.nodup_cons] at hnd
        exact hnd.2
      simp [lookupPairs, hk, ih hnd' h1]

theorem lookupPairs_eq_none (m : List (Char × Nat)) (c : Char)
    (h : c ∉ keysOf m) : lookupPairs m c = none := by
  have := (mem_keysOf_iff_isSome m c).not.mp h
  cases hm : lookupPairs m c with
  | none => rfl
  | some k => exact absurd (by simp [hm]) this

/-! ### Lemmas about `makeMapFromWord` -/

theorem lookupCount_foldl_bump (w : List Char) (m0 : List (Char × Nat)) (c : Char) :
    lookupCount (w.foldl (fun m ch => bumpCount m ch) m0) c
      = lookupCount m0 c + w.count c := by
  induction w generalizing m0 with
  | nil => simp
  | cons ch rest ih =>
    rw [List.foldl_cons, ih, lookupCount_bumpCount]
    by_cases h : c = ch
    · simp [h, List.count_cons]
      omega
    · simp [h, List.count_cons, Ne.symm h]

theorem lookupCount_makeMapFromWord (w : List Char) (c : Char) :
    lookupCount (makeMapFromWord w) c = w.count c := by
  rw [makeMapFromWord, lookupCount_foldl_bump]
  simp [lookupCount, lookupPairs]

theorem isSome_foldl_bump (w : List Char) (m0 : List (Char × Nat)) (c : Char) :
    (lookupPairs (w.foldl (fun m ch => bumpCount m ch) m0) c).isSome
      ↔ (lookupPairs m0 c).isSome ∨ c ∈ w := by
  induction w generalizing m0 with
  | nil => simp
  | cons ch rest ih =>
    rw [List.foldl_cons, ih, isSome_lookupPairs_bumpCount]
    simp [or_assoc]

theorem isSome_makeMapFromWord (w : List Char) (c : Char) :
    (lookupPairs (makeMapFromWord w) c).isSome ↔ c ∈ w := by
  rw [makeMapFromWord, isSome_foldl_bump]
  simp [lookupPairs]

theorem lookupPairs_makeMapFromWord_pos (w : List Char) (c : Char)
    (h : c ∈ w) : lookupPairs (makeMapFromWord w) c = some (w.count c) := by
  have hs : (lookupPairs (makeMapFromWord w) c).isSome :=
    (isSome_makeMapFromWord w c).mpr h
  cases hm : lookupPairs (makeMapFromWord w) c with
  | none =>
    rw [hm] at hs
    simp at hs
  | some k =>
    have : lookupCount (makeMapFromWord w) c = k := by simp [lookupCount, hm]
    rw [lookupCount_makeMapFromWord] at this
    rw [← this]

/-! ### Lemmas about `mergeOne` and `mergeRequired` -/

theorem lookupCount_mergeOne (req : List (Char × Nat)) (p : Char × Nat) (c : Char) :
    lookupCount (mergeOne req p) c
      = if c = p.1 then max (lookupCount req c) p.2 else lookupCount req c := by
  unfold mergeOne
  cases hm : lookupPairs req p.1 with
  | none =>
    rw [lookupCount_setPair]
    by_cases h : c = p.1
    · subst h
      simp [lookupCount, hm]
    · simp [h]
  | some old =>
    by_cases hgt : p.2 > old
    · simp only [if_pos hgt, lookupCount_setPair]
      by_cases h : c = p.1
      · subst h
        simp [lookupCount, hm]
        omega
      · simp [h]
    · simp only [if_neg hgt]
      by_cases h : c = p.1
      · subst h
        simp [lookupCount, hm]
        omega
      · simp [h]

theorem lookupCount_le_mergeRequired (req tally : List (Char × Nat)) (c : Char) :
    lookupCount req c ≤ lookupCount (mergeRequired req tally) c := by
  rw [mergeRequired]
  induction tally generalizing req with
  | nil => simp
  | cons p rest ih =>
    rw [List.foldl_cons]
    refine le_trans ?_ (ih (mergeOne req p))
    rw [lookupCount_mergeOne]
    by_cases h : c = p.1
    · simp [h, le_max_left]
    · simp [h]

theorem lookupCount_mergeRequired (req tally : List (Char × Nat)) (c : Char)
    (hnd : (keysOf tally).Nodup) :
    lookupCount (mergeRequired req tally) c
      = max (lookupCount req c) (lookupCount tally c) := by
  rw [mergeRequired]
  induction tally generalizing req with
  | nil => simp [lookupCount, lookupPairs]
  | cons p rest ih =>
    obtain ⟨k, v⟩ := p
    simp only [keysOf, List.map_cons, List.nodup_cons] at hnd
    have hnd' : (keysOf rest).Nodup := hnd.2
    rw [List.foldl_cons, ih _ hnd', lookupCount_mergeOne]
    by_cases h : c = k
    · subst h
      have hz : lookupCount rest c = 0 := by
        rw [lookupCount, lookupPairs_eq_none rest c hnd.1]
        rfl
      have hc : lookupCount ((c, v) :: rest) c = v := by
        simp [lookupCount, lookupPairs]
      simp [hz, hc]
    · have hc : lookupCount ((k, v) :: rest) c = lookupCount rest c := by
        simp [lookupCount, lookupPairs, Ne.symm h, h]
      simp [h, hc]

/-! ### List `getD` helpers -/

theorem listGetD_set_self {α : Type} (l : List α) (i : Nat) (a d : α) :
    (l.set i a).getD i d = if i < l.length then a else d := by
  induction l generalizing i with
  | nil => simp
  | cons x xs ih =>
    cases i with
    | zero => simp
    | succ j =>
      simp only [List.set_cons_succ, List.getD, List.length_cons]
      have := ih j
      simp only [List.getD] at this
      rw [show (List.get? (x :: List.set xs j a) (j + 1)) = List.get? (List.set xs j a) j
        from rfl]
      rw [this]
      by_cases h : j < xs.length
      · simp [h, Nat.succ_lt_succ h]
      · simp [h, fun hh => h (Nat.lt_of_succ_lt_succ hh)]

theorem listGetD_set_ne {α : Type} (l : List α) (i k : Nat) (a d : α) (h : i ≠ k) :
    (l.set i a).getD k d = l.getD k d := by
  induction l generalizing i k with
  | nil => simp
  | cons x xs ih =>
    cases i with
    | zero =>
      cases k with
      | zero => exact absurd rfl h
      | succ j => simp [List.getD]
    | succ m =>
      cases k with
      | zero => simp [List.getD]
      | succ j =>
        simp only [List.set_cons_succ]
        show (List.set xs m a).getD j d = xs.getD j d
        exact ih m j (fun hh => h (by rw [hh]))

theorem listGetD_map_erase (l : List (Finset Char)) (g : Char) (k : Nat) :
    (l.map (fun s => s.erase g)).getD k ∅ = (l.getD k ∅).erase g := by
  induction l generalizing k with
  | nil => simp
  | cons x xs ih =>
    cases k with
    | zero => rfl
    | succ j =>
      simp only [List.map_cons]
      show (xs.map (fun s => s.erase g)).getD j ∅ = (xs.getD j ∅).erase g
      exact ih j

/-! ### Lemmas about `updateValid` -/

theorem updateValid_subset_of_ne_y (sets : List (Finset Char)) (g rc : Char)
    (i k : Nat) (h : rc ≠ 'y') :
    (updateValid sets g rc i).getD k ∅ ⊆ sets.getD k ∅ := by
  unfold updateValid
  by_cases hn : rc = 'n'
  · rw [if_pos hn, listGetD_map_erase]
    exact Finset.erase_subset _ _
  · rw [if_neg hn, if_neg h]
    by_cases hp : rc = 'p'
    · rw [if_pos hp]
      by_cases hk : k = i
      · subst hk
        rw [listGetD_set_self]
        by_cases hl : k < sets.length
        · simpa [hl] using Finset.erase_subset _ _
        · simp [hl]
      · rw [listGetD_set_ne _ _ _ _ _ (fun hh => hk hh.symm)]
    · rw [if_neg hp]

theorem updateValid_subset_of_ne_pos (sets : List (Finset Char)) (g rc : Char)
    (i k : Nat) (h : k ≠ i) :
    (updateValid sets g rc i).getD k ∅ ⊆ sets.getD k ∅ := by
  unfold updateValid
  by_cases hn : rc = 'n'
  · rw [if_pos hn, listGetD_map_erase]
    exact Finset.erase_subset _ _
  · rw [if_neg hn]
    by_cases hy : rc = 'y'
    · rw [if_pos hy, listGetD_set_ne _ _ _ _ _ (Ne.symm h)]
    · rw [if_neg hy]
      by_cases hp : rc = 'p'
      · rw [if_pos hp, listGetD_set_ne _ _ _ _ _ (Ne.symm h)]
      · rw [if_neg hp]

theorem updateValid_y_self (sets : List (Finset Char)) (g : Char) (i : Nat) :
    (updateValid sets g 'y' i).getD i ∅ ⊆ {g} := by
  unfold updateValid
  rw [if_neg (by decide : ('y' : Char) ≠ 'n'), if_pos rfl, listGetD_set_self]
  by_cases hl : i < sets.length
  · simp [hl]
  · simp [hl]

theorem updateValid_n_getD (sets : List (Finset Char)) (g : Char) (i k : Nat) :
    (updateValid sets g 'n' i).getD k ∅ = (sets.getD k ∅).erase g := by
  unfold updateValid
  rw [if_pos rfl, listGetD_map_erase]

theorem notMemAll_updateValid_n (sets : List (Finset Char)) (g : Char) (i : Nat) :
    NotMemAll g (updateValid sets g 'n' i) := by
  intro k
  rw [updateValid_n_getD]
  exact Finset.not_mem_erase _ _

theorem notMemAll_updateValid_preserve (sets : List (Finset Char)) (g rc : Char)
    (i : Nat) (c : Char) (h : rc ≠ 'y' ∨ g ≠ c) (hc : NotMemAll c sets) :
    NotMemAll c (updateValid sets g rc i) := by
  intro k
  unfold updateValid
  by_cases hn : rc = 'n'
  · rw [if_pos hn, listGetD_map_erase]
    intro hm
    exact hc k (Finset.mem_of_mem_erase hm)
  · rw [if_neg hn]
    by_cases hy : rc = 'y'
    · rw [if_pos hy]
      have hg : g ≠ c := by
        rcases h with h | h
        · exact absurd hy h
        · exact h
      by_cases hk : k = i
      · subst hk
        rw [listGetD_set_self]
        by_cases hl : k < sets.length
        · simp only [if_pos hl, Finset.mem_singleton]
          exact fun hh => hg hh.symm
        · simp [hl]
      · rw [listGetD_set_ne _ _ _ _ _ (fun hh => hk hh.symm)]
        exact hc k
    · rw [if_neg hy]
      by_cases hp : rc = 'p'
      · rw [if_pos hp]
        by_cases hk : k = i
        · subst hk
          rw [listGetD_set_self]
          by_cases hl : k < sets.length
          · simp only [if_pos hl]
            intro hm
            exact hc k (Finset.mem_of_mem_erase hm)
          · simp [hl]
        · rw [listGetD_set_ne _ _ _ _ _ (fun hh => hk hh.symm)]
          exact hc k
      · rw [if_neg hp]
        exact hc k

/-! ### Lemmas about the position loop -/

theorem processStep_some (g r : List Char) (a : LoopAcc) (i : Nat)
    (h : i < g.length) :
    processStep g r (some a) i = some (stepPure g r a i) := by
  unfold processStep stepPure
  cases hg : g.get? i with
  | none =>
    rw [List.get?_eq_none] at hg
    omega
  | some ch =>
    have hch : g.getD i ' ' = ch := by
      rw [List.getD_eq_getD_get?, hg]
      rfl
    rw [hch]

theorem foldl_processStep_none (g r : List Char) (L : List Nat) :
    L.foldl (processStep g r) none = none := by
  induction L with
  | nil => rfl
  | cons i rest ih =>
    rw [List.foldl_cons]
    exact ih

theorem foldl_processStep_eq (g r : List Char) (L : List Nat) (a : LoopAcc)
    (h : ∀ i ∈ L, i < g.length) :
    L.foldl (processStep g r) (some a) = some (L.foldl (stepPure g r) a) := by
  induction L generalizing a with
  | nil => rfl
  | cons i rest ih =>
    rw [List.foldl_cons, List.foldl_cons,
      processStep_some g r a i (h i (List.mem_cons_self i rest))]
    exact ih _ (fun j hj => h j (List.mem_cons_of_mem _ hj))

theorem foldl_processStep_isSome (g r : List Char) (L : List Nat) (a b : LoopAcc)
    (h : L.foldl (processStep g r) (some a) = some b) :
    ∀ i ∈ L, i < g.length := by
  induction L generalizing a with
  | nil => simp
  | cons i rest ih =>
    rw [List.foldl_cons] at h
    cases hs : processStep g r (some a) i with
    | none =>
      rw [hs, foldl_processStep_none] at h
      exact absurd h (by simp)
    | some a' =>
      rw [hs] at h
      intro j hj
      rcases List.mem_cons.mp hj with rfl | hj'
      · by_contra hh
        push_neg at hh
        have hnone : g.get? j = none := List.get?_eq_none.mpr hh
        unfold processStep at hs
        rw [hnone] at hs
        simp at hs
      · exact ih a' h j hj'

theorem loop_validLetters_subset (g r : List Char) (L : List Nat) (a : LoopAcc)
    (k : Nat) (h : r.getD k ' ' ≠ 'y') :
    (L.foldl (stepPure g r) a).validLetters.getD k ∅ ⊆ a.validLetters.getD k ∅ := by
  induction L generalizing a with
  | nil => exact Finset.Subset.refl _
  | cons i rest ih =>
    rw [List.foldl_cons]
    refine Finset.Subset.trans (ih _) ?_
    show (updateValid a.validLetters (g.getD i ' ') (r.getD i ' ') i).getD k ∅ ⊆ _
    by_cases hk : k = i
    · subst hk
      exact updateValid_subset_of_ne_y _ _ _ _ _ h
    · exact updateValid_subset_of_ne_pos _ _ _ _ _ hk

theorem loop_validLetters_not_mem (g r : List Char) (L : List Nat) (a : LoopAcc)
    (k : Nat) (h : k ∉ L) :
    (L.foldl (stepPure g r) a).validLetters.getD k ∅ ⊆ a.validLetters.getD k ∅ := by
  induction L generalizing a with
  | nil => exact Finset.Subset.refl _
  | cons i rest ih =>
    rw [List.foldl_cons]
    refine Finset.Subset.trans (ih _ (fun hh => h (List.mem_cons_of_mem _ hh))) ?_
    show (updateValid a.validLetters (g.getD i ' ') (r.getD i ' ') i).getD k ∅ ⊆ _
    exact updateValid_subset_of_ne_pos _ _ _ _ _
      (fun hh => h (hh ▸ List.mem_cons_self i rest))

theorem loop_validLetters_y (g r : List Char) (L : List Nat) (a : LoopAcc)
    (k : Nat) (hy : r.getD k ' ' = 'y') (hk : k ∈ L) :
    (L.foldl (stepPure g r) a).validLetters.getD k ∅ ⊆ {g.getD k ' '} := by
  induction L generalizing a with
  | nil => simp at hk
  | cons i rest ih =>
    rw [List.foldl_cons]
    by_cases hmem : k ∈ rest
    · exact ih _ hmem
    · have hki : k = i := by
        rcases List.mem_cons.mp hk with h1 | h1
        · exact h1
        · exact absurd h1 hmem
      subst hki
      refine Finset.Subset.trans (loop_validLetters_not_mem g r rest _ k hmem) ?_
      show (updateValid a.validLetters (g.getD k ' ') (r.getD k ' ') k).getD k ∅ ⊆ _
      rw [hy]
      exact updateValid_y_self _ _ _

theorem notMemAll_foldl (g r : List Char) (L : List Nat) (a : LoopAcc) (c : Char)
    (h : ∀ i ∈ L, r.getD i ' ' ≠ 'y' ∨ g.getD i ' ' ≠ c)
    (hc : NotMemAll c a.validLetters) :
    NotMemAll c (L.foldl (stepPure g r) a).validLetters := by
  induction L generalizing a with
  | nil => exact hc
  | cons i rest ih =>
    rw [List.foldl_cons]
    refine ih _ (fun j hj => h j (List.mem_cons_of_mem _ hj)) ?_
    exact notMemAll_updateValid_preserve _ _ _ _ _
      (h i (List.mem_cons_self i rest)) hc

theorem notMemAll_foldl_of_n (g r : List Char) (L : List Nat) (a : LoopAcc)
    (j : Nat) (c : Char) (hj : j ∈ L) (hn : r.getD j ' ' = 'n')
    (hg : g.getD j ' ' = c)
    (h : ∀ i ∈ L, r.getD i ' ' ≠ 'y' ∨ g.getD i ' ' ≠ c) :
    NotMemAll c (L.foldl (stepPure g r) a).validLetters := by
  induction L generalizing a with
  | nil => simp at hj
  | cons i rest ih =>
    rw [List.foldl_cons]
    by_cases hmem : j ∈ rest
    · exact ih _ hmem (fun i hi => h i (List.mem_cons_of_mem _ hi))
    · have hji : j = i := by
        rcases List.mem_cons.mp hj with h1 | h1
        · exact h1
        · exact absurd h1 hmem
      subst hji
      refine notMemAll_foldl g r rest _ c
        (fun i hi => h i (List.mem_cons_of_mem _ hi)) ?_
      show NotMemAll c (updateValid a.validLetters (g.getD j ' ') (r.getD j ' ') j)
      rw [hn, hg]
      exact notMemAll_updateValid_n _ _ _

theorem loop_tally (g r : List Char) (L : List Nat) (a : LoopAcc) (c : Char) :
    lookupCount (L.foldl (stepPure g r) a).tally c
      = lookupCount a.tally c
        + L.countP (fun i =>
            decide ((r.getD i ' ' = 'y' ∨ r.getD i ' ' = 'p') ∧ g.getD i ' ' = c)) := by
  induction L generalizing a with
  | nil => simp
  | cons i rest ih =>
    rw [List.foldl_cons, ih, List.countP_cons]
    have hstep : lookupCount (stepPure g r a i).tally c
        = lookupCount a.tally c
          + if (r.getD i ' ' = 'y' ∨ r.getD i ' ' = 'p') ∧ g.getD i ' ' = c
            then 1 else 0 := by
      show lookupCount (updateTally a.tally (g.getD i ' ') (r.getD i ' ')) c = _
      unfold updateTally
      by_cases hyp : r.getD i ' ' = 'y' ∨ r.getD i ' ' = 'p'
      · rw [if_pos hyp, lookupCount_bumpCount]
        by_cases hgc : g.getD i ' ' = c
        · rw [if_pos hgc.symm, if_pos ⟨hyp, hgc⟩]
        · rw [if_neg (fun hh => hgc hh.symm), if_neg (fun hh => hgc hh.2)]
      · rw [if_neg hyp, if_neg (fun hh => hyp hh.1)]
        omega
    rw [hstep]
    simp only [decide_eq_true_eq]
    omega

theorem loop_tally_nodup (g r : List Char) (L : List Nat) (a : LoopAcc)
    (h : (keysOf a.tally).Nodup) :
    (keysOf (L.foldl (stepPure g r) a).tally).Nodup := by
  induction L generalizing a with
  | nil => exact h
  | cons i rest ih =>
    rw [List.foldl_cons]
    apply ih
    show (keysOf (updateTally a.tally (g.getD i ' ') (r.getD i ' '))).Nodup
    unfold updateTally
    by_cases hyp : r.getD i ' ' = 'y' ∨ r.getD i ' ' = 'p'
    · rw [if_pos hyp]
      exact nodup_keysOf_bumpCount _ _ h
    · rw [if_neg hyp]
      exact h

theorem loop_bad_mono (g r : List Char) (L : List Nat) (a : LoopAcc) (c : Char)
    (h : c ∈ a.bad) : c ∈ (L.foldl (stepPure g r) a).bad := by
  induction L generalizing a with
  | nil => exact h
  | cons i rest ih =>
    rw [List.foldl_cons]
    refine ih _ ?_
    show c ∈ updateBad a.bad (r.getD i ' ')
    unfold updateBad
    by_cases hc : r.getD i ' ' = 'n' ∨ r.getD i ' ' = 'y' ∨ r.getD i ' ' = 'p'
    · rwa [if_pos hc]
    · rw [if_neg hc]
      exact List.mem_append_left _ h

theorem loop_bad_empty (g r : List Char) (L : List Nat) (a : LoopAcc)
    (hgood : ∀ i ∈ L, r.getD i ' ' = 'n' ∨ r.getD i ' ' = 'y' ∨ r.getD i ' ' = 'p')
    (ha : a.bad = []) : (L.foldl (stepPure g r) a).bad = [] := by
  induction L generalizing a with
  | nil => exact ha
  | cons i rest ih =>
    rw [List.foldl_cons]
    refine ih _ (fun j hj => hgood j (List.mem_cons_of_mem _ hj)) ?_
    show updateBad a.bad (r.getD i ' ') = []
    unfold updateBad
    rw [if_pos (hgood i (List.mem_cons_self i rest))]
    exact ha

theorem loop_bad_mem (g r : List Char) (L : List Nat) (a : LoopAcc) (j : Nat)
    (hj : j ∈ L)
    (hbad : ¬(r.getD j ' ' = 'n' ∨ r.getD j ' ' = 'y' ∨ r.getD j ' ' = 'p')) :
    r.getD j ' ' ∈ (L.foldl (stepPure g r) a).bad := by
  induction L generalizing a with
  | nil => simp at hj
  | cons i rest ih =>
    rw [List.foldl_cons]
    by_cases hmem : j ∈ rest
    · exact ih _ hmem
    · have hji : j = i := by
        rcases List.mem_cons.mp hj with h1 | h1
        · exact h1
        · exact absurd h1 hmem
      subst hji
      refine loop_bad_mono g r rest _ _ ?_
      show r.getD j ' ' ∈ updateBad a.bad (r.getD j ' ')
      unfold updateBad
      rw [if_neg hbad]
      exact List.mem_append_right _ (List.mem_singleton.mpr rfl)

/-! ### Structural lemmas about `processResponse` -/

theorem processResponse_yyyyy (st : SolverState) (g : List Char) :
    processResponse st g yyyyy
      = some { state := st, foundAnswer := true, badLength := false, bad := [] } := by
  unfold processResponse
  rw [if_pos rfl]

theorem processResponse_badLength (st : SolverState) (g r : List Char)
    (h : r.length ≠ 5) :
    processResponse st g r
      = some { state := st, foundAnswer := false, badLength := true, bad := [] } := by
  have hy : r ≠ yyyyy := fun hh => h (by rw [hh]; rfl)
  unfold processResponse
  rw [if_neg hy, if_pos h]

theorem processResponse_run (st : SolverState) (g r : List Char)
    (hy : r ≠ yyyyy) (hl : r.length = 5) (hg : 5 ≤ g.length) :
    processResponse st g r
      = some { state := {
                 validLetters :=
                   ((List.range 5).foldl (stepPure g r)
                     ⟨st.validLetters, [], []⟩).validLetters,
                 requiredLetters := mergeRequired st.requiredLetters
                   ((List.range 5).foldl (stepPure g r)
                     ⟨st.validLetters, [], []⟩).tally },
               foundAnswer := false, badLength := false,
               bad := ((List.range 5).foldl (stepPure g r)
                 ⟨st.validLetters, [], []⟩).bad } := by
  unfold processResponse
  rw [if_neg hy, if_neg (show ¬r.length ≠ 5 from fun hh => hh hl)]
  rw [foldl_processStep_eq g r _ _
    (fun i hi => lt_of_lt_of_le (List.mem_range.mp hi) hg)]

theorem processResponse_some_guess_long (st : SolverState) (g r : List Char)
    (res : ProcessResult) (h : processResponse st g r = some res)
    (hy : r ≠ yyyyy) (hl : r.length = 5) :
    5 ≤ g.length := by
  unfold processResponse at h
  rw [if_neg hy, if_neg (show ¬r.length ≠ 5 from fun hh => hh hl)] at h
  cases hf : (List.range 5).foldl (processStep g r)
      (some ⟨st.validLetters, [], []⟩) with
  | none =>
    rw [hf] at h
    simp at h
  | some a =>
    have hall := foldl_processStep_isSome g r (List.range 5) _ a hf
    have h4 : 4 < g.length := hall 4 (by decide)
    omega

/-! ### Selector lemmas -/

theorem listGetD_of_get {α : Type} (l : List α) (i : Nat) (d : α)
    (h : i < l.length) : l.getD i d = l.get ⟨i, h⟩ := by
  rw [List.getD_eq_getD_get?, List.get?_eq_get h]
  rfl

theorem listGetD_replicate {α : Type} (n i : Nat) (x d : α) (h : i < n) :
    (List.replicate n x).getD i d = x := by
  induction n generalizing i with
  | zero => omega
  | succ m ih =>
    cases i with
    | zero => rfl
    | succ j =>
      show (List.replicate m x).getD j d = x
      exact ih j (by omega)

theorem condA_iff (st : SolverState) (w : List Char) :
    condA st w = true ↔ SpecA st w := by
  unfold condA SpecA
  rw [List.all_eq_true]
  constructor
  · intro h i hi
    exact of_decide_eq_true (h i (List.mem_range.mpr hi))
  · intro h i hi
    exact decide_eq_true (h i (List.mem_range.mp hi))

theorem checkRequired_eq_true (m : List (Char × Nat)) (p : Char × Nat) :
    checkRequired m p = true ↔ ∃ k, lookupPairs m p.1 = some k ∧ p.2 ≤ k := by
  unfold checkRequired
  cases hm : lookupPairs m p.1 with
  | none => simp
  | some k => simp

theorem condB_iff (st : SolverState) (w : List Char)
    (hpos : ∀ p ∈ st.requiredLetters, 0 < p.2)
    (hnd : (keysOf st.requiredLetters).Nodup) :
    condB st w = true ↔ SpecB st w := by
  unfold condB SpecB
  rw [List.all_eq_true]
  constructor
  · intro h c n hc hn
    have hmem : (c, n) ∈ st.requiredLetters := lookupPairs_mem _ _ _ hc
    obtain ⟨k, hk, hle⟩ := (checkRequired_eq_true _ _).mp (h (c, n) hmem)
    have hcw : c ∈ w := (isSome_makeMapFromWord w c).mp (by simp [hk])
    have := (lookupPairs_makeMapFromWord_pos w c hcw).symm.trans hk
    injection this with hkc
    rw [hkc]
    exact hle
  · intro h p hp
    obtain ⟨c, n⟩ := p
    have hn : 0 < n := hpos (c, n) hp
    have hlc : lookupPairs st.requiredLetters c = some n :=
      mem_lookupPairs_of_nodup _ _ _ hnd hp
    have hle : n ≤ w.count c := h c n hlc hn
    have hcw : c ∈ w := by
      have : 0 < w.count c := lt_of_lt_of_le hn hle
      exact List.count_pos_iff.mp this
    refine (checkRequired_eq_true _ _).mpr ⟨w.count c, ?_, hle⟩
    exact lookupPairs_makeMapFromWord_pos w c hcw

theorem find?_first {α : Type} (p : α → Bool) (l : List α) (a : α)
    (h : l.find? p = some a) :
    a ∈ l ∧ p a = true ∧ ∃ l1 l2, l = l1 ++ a :: l2 ∧ ∀ b ∈ l1, p b = false := by
  induction l with
  | nil => simp at h
  | cons x rest ih =>
    cases hx : p x with
    | true =>
      rw [List.find?_cons_of_pos _ hx] at h
      injection h with h
      subst h
      exact ⟨List.mem_cons_self _ _, hx, [], rest, rfl, by simp⟩
    | false =>
      rw [List.find?_cons_of_neg _ (by rw [hx]; exact Bool.false_ne_true)] at h
      obtain ⟨hmem, hpa, l1, l2, heq, hall⟩ := ih h
      refine ⟨List.mem_cons_of_mem _ hmem, hpa, x :: l1, l2, by rw [heq]; rfl, ?_⟩
      intro b hb
      rcases List.mem_cons.mp hb with rfl | hb'
      · exact hx
      · exact hall b hb'

/-! ### Claim theorems -/

/-- C10: when the ingested verdict token is exactly "yyyyy", `processResponse`
reports the Solved outcome (`foundAnswer = true`) and performs no update at
all: the returned state is exactly the input state, so every per-position
constraint set and every required-letter count is unchanged. -/
theorem C10_solved_no_update (st : SolverState) (g : List Char) :
    processResponse st g yyyyy
      = some { state := st, foundAnswer := true, badLength := false, bad := [] } :=
  processResponse_yyyyy st g

/-- C1: evaluation of the scorer at secret "abcde" and guess "zaazz".  The
secret contains the letter a exactly once and no position matches exactly,
yet the scorer marks both a-positions of the guess Present ("nppnn"), so
the number of Present verdicts for a (two) exceeds the occurrences of a in
the secret minus its Exact matches (one); the claimed consumption bound
fails on the code. -/
theorem C1_two_present_for_single_letter :
    runGameScore "abcde".toList "zaazz".toList = "nppnn".toList ∧
    "abcde".toList.count 'a' = 1 ∧
    (List.range 5).countP (fun j =>
      decide ("nppnn".toList.getD j ' ' = 'p' ∧ "zaazz".toList.getD j ' ' = 'a')) = 2 ∧
    (List.range 5).countP (fun j =>
      decide ("abcde".toList.getD j ' ' = "zaazz".toList.getD j ' ')) = 0 := by
  decide

/-- C2: evaluation of scorer plus ingest at secret "abcde" and dictionary
guess "aazzz".  The fresh solver state is satisfied by the secret, the
scorer answers "ynnnn", but after ingesting that very verdict the secret
no longer passes the solver's own position check (`condA`): the Absent
handling of the second a removes a from every position, including position
0 which the Exact verdict had just fixed to a.  The round-trip property
fails on the code. -/
theorem C2_roundtrip_eliminates_secret :
    "aazzz".toList ∈ ["aazzz".toList, "abcde".toList] ∧
    condA initState "abcde".toList = true ∧
    condB initState "abcde".toList = true ∧
    runGameScore "abcde".toList "aazzz".toList = "ynnnn".toList ∧
    (processResponse initState "aazzz".toList "ynnnn".toList).map
      (fun res => condA res.state "abcde".toList) = some false := by
  decide

/-- C3: evaluation of ingest at guess "aazzz" with verdict "ynnnn" (the
honest verdict for secret "abcde").  Position 0 is marked Exact for a, yet
immediately after the same ingest call the position-0 constraint set is
empty rather than the singleton set containing a: the later Absent verdict
for a removed it again.  The claimed singleton invariant fails on the
code. -/
theorem C3_exact_singleton_destroyed :
    "ynnnn".toList.getD 0 ' ' = 'y' ∧
    (processResponse initState "aazzz".toList "ynnnn".toList).map
      (fun res => res.state.validLetters.getD 0 ∅) = some ∅ ∧
    (∅ : Finset Char) ≠ {'a'} := by
  decide

/-- C6: with dictionary ["apple"] and a state whose position-0 set excludes
a, the selector returns no candidate; `doGuesses` then still prompts for a
response and calls `processResponse` with the empty guess string, and on
any 5-character response the slice `myGuess[0:1]` is out of range: the Go
program panics (modeled by `none`) instead of ending the session cleanly. -/
theorem C6_no_candidate_then_panic :
    selectNext ["apple".toList] stNoCandidate = none ∧
    processResponse stNoCandidate [] "nnnnn".toList = none := by
  decide

/-- C4 (counterexample): a per-position constraint set can grow across an
ingest call.  After ingesting verdict "ynnnn" for guess "aazzz" the
position-0 set is empty; ingesting verdict "ynnnn" for guess "azzzz" (the
honest verdicts for secret "abcde") then resets position 0 to the
singleton of a, which is not a subset of the empty set the position held
before the call. -/
theorem C4_counterexample :
    ((processResponse initState "aazzz".toList "ynnnn".toList).bind fun r1 =>
      (processResponse r1.state "azzzz".toList "ynnnn".toList).map fun r2 =>
        decide (r2.state.validLetters.getD 0 ∅ ⊆ r1.state.validLetters.getD 0 ∅))
      = some false := by
  decide

/-- C5 (counterexample): a verdict token of correct length containing
characters outside {y,p,n} does not leave the solver state unchanged: for
guess "abcde" and token "nxxxx" the Absent verdict at position 0 is still
applied (a is removed everywhere) even though the four x characters are
reported as unexpected, so the mutation is not atomic. -/
theorem C5_counterexample :
    "nxxxx".toList.length = 5 ∧
    (∃ i, i < 5 ∧ ¬("nxxxx".toList.getD i ' ' = 'n' ∨ "nxxxx".toList.getD i ' ' = 'y'
      ∨ "nxxxx".toList.getD i ' ' = 'p')) ∧
    (processResponse initState "abcde".toList "nxxxx".toList).map
      (fun res => decide (res.state = initState)) = some false := by
  refine ⟨by decide, ⟨1, by decide, by decide⟩, by decide⟩

/-- C9 (counterexample): for the well-formed verdict sequence "yyyyy" the
required-count update does not take place at all: for guess "abcde" the
per-guess tally of a is 1, so the claimed formula would give
max(0, 1) = 1, but `processResponse` returns with the required count of a
still 0 because the all-Exact token short-circuits to the Solved outcome. -/
theorem C9_counterexample :
    tallySpec "abcde".toList yyyyy 'a' = 1 ∧
    (processResponse initState "abcde".toList yyyyy).map
      (fun res => lookupCount res.state.requiredLetters 'a') = some 0 := by
  decide

/-- C4 (amended): required-letter counts never decrease across any
`processResponse` call, and each per-position constraint set after a call
is a subset of its value before the call, except that a position whose
verdict in this call is Exact ends as a subset of the singleton of the
guessed letter (which may re-add a previously removed letter). -/
theorem C4_amended_monotonicity (st : SolverState) (g r : List Char)
    (res : ProcessResult) (h : processResponse st g r = some res) :
    (∀ c, lookupCount st.requiredLetters c
      ≤ lookupCount res.state.requiredLetters c) ∧
    (∀ i, i < 5 →
      res.state.validLetters.getD i ∅ ⊆ st.validLetters.getD i ∅ ∨
      (r.getD i ' ' = 'y' ∧
        res.state.validLetters.getD i ∅ ⊆ {g.getD i ' '})) := by
  by_cases hy : r = yyyyy
  · subst hy
    rw [processResponse_yyyyy] at h
    injection h with h
    subst h
    exact ⟨fun c => le_refl _, fun i hi => Or.inl (Finset.Subset.refl _)⟩
  · by_cases hl : r.length = 5
    · have hg : 5 ≤ g.length := processResponse_some_guess_long st g r res h hy hl
      rw [processResponse_run st g r hy hl hg] at h
      injection h with h
      subst h
      constructor
      · intro c
        exact lookupCount_le_mergeRequired _ _ _
      · intro i hi
        by_cases hyi : r.getD i ' ' = 'y'
        · exact Or.inr ⟨hyi, loop_validLetters_y g r _ _ i hyi (List.mem_range.mpr hi)⟩
        · exact Or.inl (loop_validLetters_subset g r _ _ i hyi)
    · rw [processResponse_badLength st g r hl] at h
      injection h with h
      subst h
      exact ⟨fun c => le_refl _, fun i hi => Or.inl (Finset.Subset.refl _)⟩

/-- C4 witness: the amended monotonicity statement holds at the initial
state with guess "abcde" and verdict "ypnnn". -/
theorem C4_amended_witness :
    (∀ c, lookupCount initState.requiredLetters c
      ≤ lookupCount ((processResponse initState "abcde".toList "ypnnn".toList).get
          (by decide)).state.requiredLetters c) ∧
    (∀ i, i < 5 →
      ((processResponse initState "abcde".toList "ypnnn".toList).get
        (by decide)).state.validLetters.getD i ∅ ⊆ initState.validLetters.getD i ∅ ∨
      ("ypnnn".toList.getD i ' ' = 'y' ∧
        ((processResponse initState "abcde".toList "ypnnn".toList).get
          (by decide)).state.validLetters.getD i ∅ ⊆ {"abcde".toList.getD i ' '})) :=
  C4_amended_monotonicity initState "abcde".toList "ypnnn".toList
    ((processResponse initState "abcde".toList "ypnnn".toList).get (by decide))
    (Option.some_get _).symm

/-- C5 (amended): a verdict token whose length is not 5 is reported as
malformed and leaves the state completely unchanged; for a processed
length-5 token, characters outside {y,p,n} are each reported as unexpected
(and none is reported when all characters are valid), and a position whose
character is unexpected performs no update of the constraint sets or the
tally by itself, while the remaining valid positions are still applied. -/
theorem C5_amended_malformed (st : SolverState) (g r : List Char) :
    (r.length ≠ 5 → processResponse st g r
        = some { state := st, foundAnswer := false, badLength := true, bad := [] }) ∧
    (r ≠ yyyyy → r.length = 5 → 5 ≤ g.length →
      ∃ res, processResponse st g r = some res ∧
        ((∀ i, i < 5 →
            r.getD i ' ' = 'n' ∨ r.getD i ' ' = 'y' ∨ r.getD i ' ' = 'p') →
          res.bad = []) ∧
        (∀ i, i < 5 →
          ¬(r.getD i ' ' = 'n' ∨ r.getD i ' ' = 'y' ∨ r.getD i ' ' = 'p') →
          r.getD i ' ' ∈ res.bad)) ∧
    (∀ sets t b gc rc i, ¬(rc = 'n' ∨ rc = 'y' ∨ rc = 'p') →
      updateValid sets gc rc i = sets ∧ updateTally t gc rc = t ∧
      updateBad b rc = b ++ [rc]) := by
  refine ⟨?_, ?_, ?_⟩
  · intro hl
    exact processResponse_badLength st g r hl
  · intro hy hl hg
    refine ⟨_, processResponse_run st g r hy hl hg, ?_, ?_⟩
    · intro hgood
      show ((List.range 5).foldl (stepPure g r) ⟨st.validLetters, [], []⟩).bad = []
      exact loop_bad_empty g r _ _ (fun i hi => hgood i (List.mem_range.mp hi)) rfl
    · intro i hi hbad
      show r.getD i ' '
        ∈ ((List.range 5).foldl (stepPure g r) ⟨st.validLetters, [], []⟩).bad
      exact loop_bad_mem g r _ _ i (List.mem_range.mpr hi) hbad
  · intro sets t b gc rc i hrc
    have hn : rc ≠ 'n' := fun hh => hrc (Or.inl hh)
    have hy : rc ≠ 'y' := fun hh => hrc (Or.inr (Or.inl hh))
    have hp : rc ≠ 'p' := fun hh => hrc (Or.inr (Or.inr hh))
    refine ⟨?_, ?_, ?_⟩
    · unfold updateValid
      rw [if_neg hn, if_neg hy, if_neg hp]
    · unfold updateTally
      rw [if_neg (fun hh => hh.elim hy hp)]
    · unfold updateBad
      rw [if_neg hrc]

/-- C5 witness: the amended malformed-verdict statement instantiated at a
length-2 token, at the token "nxxxx" for guess "abcde", and at the
unexpected character x. -/
theorem C5_amended_witness :
    processResponse initState [] "yn".toList
      = some { state := initState, foundAnswer := false, badLength := true,
               bad := [] } ∧
    (∃ res, processResponse initState "abcde".toList "nxxxx".toList = some res ∧
      ((∀ i, i < 5 → "nxxxx".toList.getD i ' ' = 'n' ∨
          "nxxxx".toList.getD i ' ' = 'y' ∨ "nxxxx".toList.getD i ' ' = 'p') →
        res.bad = []) ∧
      (∀ i, i < 5 →
        ¬("nxxxx".toList.getD i ' ' = 'n' ∨ "nxxxx".toList.getD i ' ' = 'y' ∨
          "nxxxx".toList.getD i ' ' = 'p') →
        "nxxxx".toList.getD i ' ' ∈ res.bad)) ∧
    (updateValid [initSet] 'a' 'x' 0 = [initSet] ∧ updateTally [] 'a' 'x' = [] ∧
      updateBad [] 'x' = [] ++ ['x']) :=
  ⟨(C5_amended_malformed initState [] "yn".toList).1 (by decide),
   (C5_amended_malformed initState "abcde".toList "nxxxx".toList).2.1
     (by decide) (by decide) (by decide),
   (C5_amended_malformed initState "abcde".toList "nxxxx".toList).2.2
     [initSet] [] [] 'a' 'x' 0 (by decide)⟩

/-- C9 (amended): for every processed well-formed verdict sequence (length
5, characters in {y,p,n}, and not the all-Exact token, which
short-circuits to Solved with no update), the required count of every
letter after the call equals the maximum of its previous value and the
per-guess tally of Exact/Present verdicts for that letter in this
sequence. -/
theorem C9_amended_required_max (st : SolverState) (g r : List Char)
    (hl : r.length = 5) (hy : r ≠ yyyyy) (hg : 5 ≤ g.length)
    (hw : ∀ i, i < 5 →
      r.getD i ' ' = 'y' ∨ r.getD i ' ' = 'p' ∨ r.getD i ' ' = 'n') :
    ∃ res, processResponse st g r = some res ∧
      ∀ c, lookupCount res.state.requiredLetters c
        = max (lookupCount st.requiredLetters c) (tallySpec g r c) := by
  refine ⟨_, processResponse_run st g r hy hl hg, ?_⟩
  intro c
  show lookupCount (mergeRequired st.requiredLetters _) c = _
  rw [lookupCount_mergeRequired _ _ _
    (loop_tally_nodup g r _ _ (by simp [keysOf]))]
  congr 1
  rw [loop_tally]
  simp only [tallySpec]
  rw [show lookupCount ([] : List (Char × Nat)) c = 0 from rfl]
  omega

/-- C9 witness: the amended required-count statement instantiated at the
initial state, guess "aabbb" and verdict "ypnnn" (tally of a is 2). -/
theorem C9_amended_witness :
    ∃ res, processResponse initState "aabbb".toList "ypnnn".toList = some res ∧
      ∀ c, lookupCount res.state.requiredLetters c
        = max (lookupCount initState.requiredLetters c)
            (tallySpec "aabbb".toList "ypnnn".toList c) :=
  C9_amended_required_max initState "aabbb".toList "ypnnn".toList
    (by decide) (by decide) (by decide) (by decide)

/-- C7: the candidate selector returns the first dictionary word that (a)
has each of its letters in the corresponding position's constraint set and
(b) contains every letter with a recorded positive required count at least
that many times; every earlier dictionary word violates (a) or (b), and
when no word qualifies it returns none.  The two side conditions are the
representation invariants of the Go map `requiredLetters`: keys are
unique, and only letters already known to be required (count ≥ 1) are
stored. -/
theorem C7_selector_first_match (d : List (List Char)) (st : SolverState)
    (hpos : ∀ p ∈ st.requiredLetters, 0 < p.2)
    (hnd : (keysOf st.requiredLetters).Nodup) :
    (∀ w, selectNext d st = some w →
      w ∈ d ∧ SpecA st w ∧ SpecB st w ∧
      ∃ d1 d2, d = d1 ++ w :: d2 ∧ ∀ v ∈ d1, ¬(SpecA st v ∧ SpecB st v)) ∧
    (selectNext d st = none → ∀ w ∈ d, ¬(SpecA st w ∧ SpecB st w)) := by
  constructor
  · intro w hw
    unfold selectNext at hw
    obtain ⟨hmem, hp, l1, l2, heq, hall⟩ := find?_first _ d w hw
    rw [Bool.and_eq_true] at hp
    refine ⟨hmem, (condA_iff st w).mp hp.1, (condB_iff st w hpos hnd).mp hp.2,
      l1, l2, heq, ?_⟩
    intro v hv hcontra
    have hfalse := hall v hv
    rw [(condA_iff st v).mpr hcontra.1,
      (condB_iff st v hpos hnd).mpr hcontra.2] at hfalse
    simp at hfalse
  · intro hnone w hw hcontra
    unfold selectNext at hnone
    have hne := List.find?_eq_none.mp hnone w hw
    apply hne
    rw [(condA_iff st w).mpr hcontra.1, (condB_iff st w hpos hnd).mpr hcontra.2]
    rfl

/-- C7 witness: with dictionary ["apple", "beach", "candy"] and the fully
open initial state the selector returns "apple", and the characterization
holds there. -/
theorem C7_selector_witness :
    selectNext ["apple".toList, "beach".toList, "candy".toList] initState
      = some "apple".toList ∧
    ((∀ w, selectNext ["apple".toList, "beach".toList, "candy".toList] initState
        = some w →
      w ∈ ["apple".toList, "beach".toList, "candy".toList] ∧ SpecA initState w ∧
        SpecB initState w ∧
      ∃ d1 d2, ["apple".toList, "beach".toList, "candy".toList] = d1 ++ w :: d2 ∧
        ∀ v ∈ d1, ¬(SpecA initState v ∧ SpecB initState v)) ∧
    (selectNext ["apple".toList, "beach".toList, "candy".toList] initState = none →
      ∀ w ∈ ["apple".toList, "beach".toList, "candy".toList],
        ¬(SpecA initState w ∧ SpecB initState w))) :=
  ⟨by decide, C7_selector_first_match _ _ (by decide) (by decide)⟩

/-- C8: an Absent verdict removes the guessed letter from every position's
constraint set (the per-position update for n maps every set to itself
minus the letter); moreover, whenever no position of the same call marks
the same letter Exact, the letter is absent from every set after the call;
in particular, after ingesting an all-Absent verdict every letter of the
guess is absent from every position's set, every word containing any of
those letters fails the selector's condition (a), and the selector never
returns such a word for the resulting state. -/
theorem C8_absent_global_elimination (st : SolverState) (g r : List Char)
    (hg5 : g.length = 5) :
    (∀ sets gc i k,
      (updateValid sets gc 'n' i).getD k ∅ = (sets.getD k ∅).erase gc) ∧
    (∀ res j, processResponse st g r = some res → r ≠ yyyyy → r.length = 5 →
      j < 5 → r.getD j ' ' = 'n' →
      (∀ k, k < 5 → r.getD k ' ' ≠ 'y' ∨ g.getD k ' ' ≠ g.getD j ' ') →
      ∀ k, g.getD j ' ' ∉ res.state.validLetters.getD k ∅) ∧
    (r = List.replicate 5 'n' →
      ∃ res, processResponse st g r = some res ∧
        (∀ c ∈ g, ∀ k, c ∉ res.state.validLetters.getD k ∅) ∧
        (∀ w, (∃ c ∈ w, c ∈ g) → condA res.state w = false) ∧
        (∀ d w', selectNext d res.state = some w' → ∀ c ∈ w', c ∉ g)) := by
  refine ⟨fun sets gc i k => updateValid_n_getD sets gc i k, ?_, ?_⟩
  · intro res j h hy hl hj hn hnoy
    rw [processResponse_run st g r hy hl (by omega)] at h
    injection h with h
    subst h
    intro k
    exact notMemAll_foldl_of_n g r (List.range 5) _ j (g.getD j ' ')
      (List.mem_range.mpr hj) hn rfl
      (fun i hi => hnoy i (List.mem_range.mp hi)) k
  · intro hrep
    subst hrep
    have hyy : (List.replicate 5 'n' : List Char) ≠ yyyyy := by decide
    have hll : (List.replicate 5 'n' : List Char).length = 5 := by decide
    refine ⟨_, processResponse_run st g _ hyy hll (by omega), ?_⟩
    have hnot : ∀ c ∈ g, NotMemAll c
        ((List.range 5).foldl (stepPure g (List.replicate 5 'n'))
          ⟨st.validLetters, [], []⟩).validLetters := by
      intro c hc
      obtain ⟨⟨j, hjlen⟩, hget⟩ := List.mem_iff_get.mp hc
      have hj5 : j < 5 := by omega
      refine notMemAll_foldl_of_n g _ (List.range 5) _ j c
        (List.mem_range.mpr hj5) (listGetD_replicate 5 j 'n' ' ' hj5) ?_ ?_
      · rw [listGetD_of_get g j ' ' hjlen, hget]
      · intro i hi
        left
        rw [listGetD_replicate 5 i 'n' ' ' (List.mem_range.mp hi)]
        decide
    have hcondA : ∀ w, (∃ c ∈ w, c ∈ g) →
        condA { validLetters :=
                  ((List.range 5).foldl (stepPure g (List.replicate 5 'n'))
                    ⟨st.validLetters, [], []⟩).validLetters,
                requiredLetters := mergeRequired st.requiredLetters
                  ((List.range 5).foldl (stepPure g (List.replicate 5 'n'))
                    ⟨st.validLetters, [], []⟩).tally } w = false := by
      intro w hw
      obtain ⟨c, hcw, hcg⟩ := hw
      cases hA : condA _ w with
      | false => rfl
      | true =>
        exfalso
        have hspec := (condA_iff _ w).mp hA
        obtain ⟨⟨i, hi⟩, hget⟩ := List.mem_iff_get.mp hcw
        have hmem := hspec i hi
        rw [listGetD_of_get w i ' ' hi, hget] at hmem
        exact hnot c hcg i hmem
    refine ⟨fun c hc k => hnot c hc k, hcondA, ?_⟩
    intro d w' hsel c hcw' hcg
    unfold selectNext at hsel
    obtain ⟨_, hp, _⟩ := find?_first _ d w' hsel
    rw [Bool.and_eq_true] at hp
    have hfalse := hcondA w' ⟨c, hcw', hcg⟩
    rw [hp.1] at hfalse
    cases hfalse

/-- C8 witness: the statement instantiated at the initial state, guess
"zzzzz" and the all-Absent verdict, matching Scenario 4 of the
specification. -/
theorem C8_absent_witness :
    (∀ sets gc i k,
      (updateValid sets gc 'n' i).getD k ∅ = (sets.getD k ∅).erase gc) ∧
    (∀ res j, processResponse initState "zzzzz".toList (List.replicate 5 'n')
        = some res →
      (List.replicate 5 'n' : List Char) ≠ yyyyy →
      (List.replicate 5 'n' : List Char).length = 5 →
      j < 5 → (List.replicate 5 'n' : List Char).getD j ' ' = 'n' →
      (∀ k, k < 5 → (List.replicate 5 'n' : List Char).getD k ' ' ≠ 'y' ∨
        "zzzzz".toList.getD k ' ' ≠ "zzzzz".toList.getD j ' ') →
      ∀ k, "zzzzz".toList.getD j ' ' ∉ res.state.validLetters.getD k ∅) ∧
    ((List.replicate 5 'n' : List Char) = List.replicate 5 'n' →
      ∃ res, processResponse initState "zzzzz".toList (List.replicate 5 'n')
          = some res ∧
        (∀ c ∈ "zzzzz".toList, ∀ k, c ∉ res.state.validLetters.getD k ∅) ∧
        (∀ w, (∃ c ∈ w, c ∈ "zzzzz".toList) → condA res.state w = false) ∧
        (∀ d w', selectNext d res.state = some w' →
          ∀ c ∈ w', c ∉ "zzzzz".toList)) :=
  C8_absent_global_elimination initState "zzzzz".toList (List.replicate 5 'n')
    (by decide)

